import Mathlib

/-!
Shallow embedding of `src/app/src/lib/conviction.js`, the conviction-voting
math engine (decay evaluator, point-in-time queries, history sampling,
threshold algebra).

Modeling conventions:
* JS numbers are modeled as exact rationals (`ℚ`): every finite IEEE double is
  a rational and the module's arithmetic is `+ - * /` and integer powers, so
  `ℚ` is closed under it.  IEEE rounding and overflow are outside the model.
* The value `NaN` — which in `getConvictionHistory` arises from
  `[...history].pop()` on an empty array (`undefined`) entering arithmetic —
  is modeled by `Option ℚ`, `none` playing the role of NaN/undefined.  Every
  arithmetic operation with a `none` operand yields `none`, matching NaN
  propagation through `*`, `+` and `/`.
* `Number.POSITIVE_INFINITY`, returned only by `calculateThreshold`, is
  modeled as `⊤ : WithTop ℚ`.
* `getRemainingTimeToPass` calls `Math.log`, so that one function is modeled
  over `ℝ`, with `none : Option ℝ` for its NaN results (`Math.log` of a
  negative argument, propagated through the outer division).
* The JS remainder `%` is only ever compared with `0`, where JS remainder and
  Lean `Int.emod` agree (both are `0` exactly when `timeUnit` divides the
  operand), so `t % timeUnit = 0` is a faithful translation of
  `t % timeUnit === 0`.
* Division by zero (JS `±Infinity`/`NaN`) is outside the rational model; the
  claims keep the relevant denominators nonzero (`alpha ≠ 1`, `funds ≠ 0`).
* JS `while`/`for` loops are embedded as structurally recursive functions
  whose fuel argument is the loop's exact trip count.
-/

/-- A stake event as stored in the full ledger (an element of the `stakes`
array given to the by-entity functions). -/
structure StakeEvent where
  time : ℤ
  entity : String
  tokensStaked : ℚ
  totalTokensStaked : ℚ
  conviction : ℚ
deriving DecidableEq

/-- The `{time, totalTokensStaked, conviction}` shape consumed by the
conviction math (also the element shape of `stakesByEntity`'s output). -/
structure Checkpoint where
  time : ℤ
  totalTokensStaked : ℚ
  conviction : ℚ
deriving DecidableEq

/-- `calculateConviction(timePassed, initConv, amount, alpha)`:
`y0 * a ** t + (x * (1 - a ** t)) / (1 - a)`. -/
def calculateConviction (timePassed : ℤ) (initConv amount alpha : ℚ) : ℚ :=
  initConv * alpha ^ timePassed + amount * (1 - alpha ^ timePassed) / (1 - alpha)

/-- `getCurrentConviction(stakes, currentTime, alpha)`: `[...stakes].pop()`
is the last element of `stakes`; the `else` branch (no last element) yields
`0`. -/
def getCurrentConviction (stakes : List Checkpoint) (currentTime : ℤ) (alpha : ℚ) : ℚ :=
  match stakes.getLast? with
  | some lastStake =>
      calculateConviction (currentTime - lastStake.time) lastStake.conviction
        lastStake.totalTokensStaked alpha
  | none => 0

/-- `convictionFromStakes(stakes, alpha)`: replays the recurrence with a
`reduce` starting from `[0, 0, 0]` (conviction, time, amount). -/
def convictionFromStakes (stakes : List Checkpoint) (alpha : ℚ) : Checkpoint :=
  let r :=
    stakes.foldl
      (fun (acc : ℚ × ℤ × ℚ) stake =>
        let amount := stake.totalTokensStaked
        let timePassed := stake.time - acc.2.1
        (calculateConviction timePassed acc.1 acc.2.2 alpha, stake.time, amount))
      (0, 0, 0)
  { conviction := r.1, time := r.2.1, totalTokensStaked := r.2.2 }

/-- `stakesByEntity(stakes, entity)`: filter the ledger by entity and rename
`tokensStaked` to `totalTokensStaked`. -/
def stakesByEntity (stakes : List StakeEvent) (entity : String) : List Checkpoint :=
  (stakes.filter fun st => st.entity = entity).map
    fun st => { time := st.time, totalTokensStaked := st.tokensStaked, conviction := st.conviction }

/-- `getCurrentConvictionByEntity(stakes, entity, currentTime, alpha)`. -/
def getCurrentConvictionByEntity (stakes : List StakeEvent) (entity : String)
    (currentTime : ℤ) (alpha : ℚ) : ℚ :=
  let entityStakes := stakesByEntity stakes entity
  if entityStakes.length > 0 then
    let r := convictionFromStakes entityStakes alpha
    calculateConviction (currentTime - r.time) r.conviction r.totalTokensStaked alpha
  else 0

/-- NaN-aware `calculateConviction`, used where the conviction checkpoint may
be NaN/undefined (that is, inside the history-sampling loop): a `none`
checkpoint makes the whole expression `none`, exactly as a NaN `y0` makes
`y0 * a ** t + (x * (1 - a ** t)) / (1 - a)` NaN. -/
def calculateConvictionNaN (timePassed : ℕ) (initConv : Option ℚ) (amount alpha : ℚ) :
    Option ℚ :=
  initConv.map fun y0 => calculateConviction timePassed y0 amount alpha

/-- The mutable state of the sampling loop in `getConvictionHistory`:
`oldAmount`, `lastConv` (which can hold NaN after a pop of the empty
history), `timePassed`, the not-yet-consumed suffix `recentStakes[i..]` of
`recentStakes`, and the output array `history`. -/
structure LoopState where
  oldAmount : ℚ
  lastConv : Option ℚ
  timePassed : ℕ
  rest : List Checkpoint
  history : List (Option ℚ)
deriving DecidableEq

/-- The inner `while (recentStakes.length > i && recentStakes[i].time <= t)`
loop of `getConvictionHistory`, recursing on the unconsumed suffix.  Each
iteration sets `oldAmount = recentStakes[i++].totalTokensStaked`,
`timePassed = 0` and `lastConv = [...history].pop()` (the last history
element, or `undefined` — `none` — when the history is empty). -/
def consumeGo (t : ℤ) (oldAmount : ℚ) (timePassed : ℕ) (lastConv : Option ℚ)
    (history : List (Option ℚ)) : List Checkpoint → LoopState
  | [] => ⟨oldAmount, lastConv, timePassed, [], history⟩
  | ev :: rest =>
      if ev.time ≤ t then
        consumeGo t ev.totalTokensStaked 0 history.getLast?.join history rest
      else ⟨oldAmount, lastConv, timePassed, ev :: rest, history⟩

/-- The inner `while` loop, packaged on a `LoopState`. -/
def consumeStakes (t : ℤ) (s : LoopState) : LoopState :=
  consumeGo t s.oldAmount s.timePassed s.lastConv s.history s.rest

/-- The `if (t % timeUnit === 0) history.push(calculateConviction(...))`
phase of a loop iteration. -/
def pushPhase (timeUnit : ℤ) (alpha : ℚ) (t : ℤ) (s : LoopState) : LoopState :=
  if t % timeUnit = 0 then
    { s with
      history :=
        s.history ++ [calculateConvictionNaN s.timePassed s.lastConv s.oldAmount alpha] }
  else s

/-- One full iteration of `for (let t = initTime; t <= currentTime; t++)`:
push phase, then the consuming `while`, then `timePassed++`. -/
def tickStep (timeUnit : ℤ) (alpha : ℚ) (t : ℤ) (s : LoopState) : LoopState :=
  let c := consumeStakes t (pushPhase timeUnit alpha t s)
  { c with timePassed := c.timePassed + 1 }

/-- The `for` loop of `getConvictionHistory`; the fuel is the remaining trip
count `currentTime - t + 1`. -/
def historyLoop (timeUnit : ℤ) (alpha : ℚ) : ℕ → ℤ → LoopState → List (Option ℚ)
  | 0, _, s => s.history
  | n + 1, t, s => historyLoop timeUnit alpha n (t + 1) (tickStep timeUnit alpha t s)

/-- The `while (initTime < 0)` zero-padding loop of `getConvictionHistory`;
the fuel is the trip count `max 0 (-initTime)`, and a `0` sample is pushed at
each `initTime` with `initTime % timeUnit === 0`. -/
def zeroPadLoop (timeUnit : ℤ) : ℕ → ℤ → List (Option ℚ)
  | 0, _ => []
  | n + 1, it =>
      (if it % timeUnit = 0 then [some (0 : ℚ)] else []) ++ zeroPadLoop timeUnit n (it + 1)

/-- `getConvictionHistory(stakes, currentTime, alpha, timeUnit)`.  The JS
`while (initTime < 0)` loop both emits the zero padding and mutates
`initTime` up to `max initTime 0`; the mutated value (used by the filters,
the checkpoint seeding and the `for` loop) is written
`if initTime0 < 0 then 0 else initTime0` here. -/
def getConvictionHistory (stakes : List Checkpoint) (currentTime : ℤ) (alpha : ℚ)
    (timeUnit : ℤ) : List (Option ℚ) :=
  let initTime0 := currentTime - 50 * timeUnit - 1
  let pad := zeroPadLoop timeUnit (-initTime0).toNat initTime0
  let initTime := if initTime0 < 0 then 0 else initTime0
  let oldStakes := stakes.filter fun stake => stake.time ≤ initTime
  let recentStakes := stakes.filter fun stake => stake.time > initTime
  let last := oldStakes.getLast?.getD { time := 0, totalTokensStaked := 0, conviction := 0 }
  let lastConv :=
    calculateConviction (initTime - last.time) last.conviction last.totalTokensStaked alpha
  historyLoop timeUnit alpha (currentTime - initTime + 1).toNat initTime
    { oldAmount := last.totalTokensStaked, lastConv := some lastConv, timePassed := 0,
      rest := recentStakes, history := pad }

/-- `getConvictionHistoryByEntity(stakes, entity, time, alpha, timeUnit)`. -/
def getConvictionHistoryByEntity (stakes : List StakeEvent) (entity : String)
    (time : ℤ) (alpha : ℚ) (timeUnit : ℤ) : List (Option ℚ) :=
  getConvictionHistory (stakesByEntity stakes entity) time alpha timeUnit

/-- `Math.log`, in the reals-plus-NaN model: NaN (`none`) on negative
arguments.  (`Math.log 0 = -Infinity` is not representable here; the claims
keep the argument away from `0`.) -/
noncomputable def mathLog (x : ℝ) : Option ℝ :=
  if x < 0 then none else some (Real.log x)

/-- NaN-propagating division of two reals-or-NaN. -/
noncomputable def nanDiv (n d : Option ℝ) : Option ℝ :=
  n.bind fun a => d.map fun b => a / b

/-- `getRemainingTimeToPass(threshold, conviction, amount, alpha)`:
`Math.log(((a - 1) * y + x) / ((a - 1) * y0 + x)) / Math.log(a)`. -/
noncomputable def getRemainingTimeToPass (threshold conviction amount alpha : ℝ) :
    Option ℝ :=
  nanDiv
    (mathLog (((alpha - 1) * threshold + amount) / ((alpha - 1) * conviction + amount)))
    (mathLog alpha)

/-- `getConvictionTrend(stakes, maxConviction, time, alpha, timeUnit)`. -/
def getConvictionTrend (stakes : List Checkpoint) (maxConviction : ℚ) (time : ℤ)
    (alpha : ℚ) (timeUnit : ℤ) : ℚ :=
  let currentConviction := getCurrentConviction stakes time alpha
  let futureConviction := getCurrentConviction stakes (time + timeUnit) alpha
  (futureConviction - currentConviction) / maxConviction

/-- `calculateThreshold(requested, funds, supply, alpha, beta, rho)`:
`share = requested / funds`; below `beta` the finite formula, otherwise
`Number.POSITIVE_INFINITY` (`⊤`). -/
def calculateThreshold (requested funds supply alpha beta rho : ℚ) : WithTop ℚ :=
  if requested / funds < beta then
    ((rho * supply / (1 - alpha) / (beta - requested / funds) ^ 2 : ℚ) : WithTop ℚ)
  else ⊤

/-- `getMinNeededStake(threshold, alpha)`: `-a * y + y`. -/
def getMinNeededStake (threshold alpha : ℚ) : ℚ :=
  -alpha * threshold + threshold

/-- `getMaxConviction(amount, alpha)`: `x / (1 - a)`. -/
def getMaxConviction (amount alpha : ℚ) : ℚ :=
  amount / (1 - alpha)

/-- Number of sampling ticks (`t % timeUnit = 0`) among the `n` consecutive
ticks `t, t+1, ..., t+n-1`: the count of samples the loops emit. -/
def multCount (timeUnit : ℤ) : ℕ → ℤ → ℕ
  | 0, _ => 0
  | n + 1, t => (if t % timeUnit = 0 then 1 else 0) + multCount timeUnit n (t + 1)

/-! ### Helper lemmas about the loop machinery -/

lemma consumeGo_history (t : ℤ) :
    ∀ (rest : List Checkpoint) (oa : ℚ) (tp : ℕ) (lc : Option ℚ) (h : List (Option ℚ)),
      (consumeGo t oa tp lc h rest).history = h := by
  intro rest
  induction rest with
  | nil => intro oa tp lc h; rfl
  | cons ev r ih =>
      intro oa tp lc h
      simp only [consumeGo]
      split
      · exact ih _ _ _ _
      · rfl

lemma consumeGo_noop (t : ℤ) (oa : ℚ) (tp : ℕ) (lc : Option ℚ) (h : List (Option ℚ))
    (rest : List Checkpoint) (hq : ∀ ev ∈ rest.head?, t < ev.time) :
    consumeGo t oa tp lc h rest = ⟨oa, lc, tp, rest, h⟩ := by
  cases rest with
  | nil => rfl
  | cons ev r =>
      have hev : t < ev.time := hq ev (by simp)
      simp only [consumeGo, if_neg (not_le.mpr hev)]

lemma consumeGo_cons (t : ℤ) (oa : ℚ) (tp : ℕ) (lc : Option ℚ) (h : List (Option ℚ))
    (ev : Checkpoint) (rest : List Checkpoint) :
    consumeGo t oa tp lc h (ev :: rest) =
      if ev.time ≤ t then consumeGo t ev.totalTokensStaked 0 h.getLast?.join h rest
      else ⟨oa, lc, tp, ev :: rest, h⟩ := rfl

lemma consumeGo_consume (t : ℤ) :
    ∀ (rest : List Checkpoint) (ev : Checkpoint) (oa : ℚ) (tp : ℕ) (lc : Option ℚ)
      (h : List (Option ℚ)), ev.time ≤ t →
      (consumeGo t oa tp lc h (ev :: rest)).timePassed = 0 ∧
      (consumeGo t oa tp lc h (ev :: rest)).lastConv = h.getLast?.join ∧
      ∃ consumed, ∃ hne : consumed ≠ [],
        ev :: rest = consumed ++ (consumeGo t oa tp lc h (ev :: rest)).rest ∧
        (consumeGo t oa tp lc h (ev :: rest)).oldAmount =
          (consumed.getLast hne).totalTokensStaked := by
  intro rest
  induction rest with
  | nil =>
      intro ev oa tp lc h hev
      rw [consumeGo_cons, if_pos hev]
      exact ⟨rfl, rfl, [ev], by simp, by simp [consumeGo], rfl⟩
  | cons ev2 r ih =>
      intro ev oa tp lc h hev
      rw [consumeGo_cons, if_pos hev]
      by_cases hev2 : ev2.time ≤ t
      · obtain ⟨h1, h2, consumed, hne, heq, hoa⟩ :=
          ih ev2 ev.totalTokensStaked 0 h.getLast?.join h hev2
        refine ⟨h1, h2, ev :: consumed, by simp, ?_, ?_⟩
        · rw [List.cons_append, ← heq]
        · rw [hoa, List.getLast_cons hne]
      · rw [consumeGo_cons, if_neg hev2]
        exact ⟨rfl, rfl, [ev], by simp, by simp, rfl⟩

lemma pushPhase_oldAmount (timeUnit : ℤ) (alpha : ℚ) (t : ℤ) (s : LoopState) :
    (pushPhase timeUnit alpha t s).oldAmount = s.oldAmount := by
  unfold pushPhase; split <;> rfl

lemma pushPhase_lastConv (timeUnit : ℤ) (alpha : ℚ) (t : ℤ) (s : LoopState) :
    (pushPhase timeUnit alpha t s).lastConv = s.lastConv := by
  unfold pushPhase; split <;> rfl

lemma pushPhase_timePassed (timeUnit : ℤ) (alpha : ℚ) (t : ℤ) (s : LoopState) :
    (pushPhase timeUnit alpha t s).timePassed = s.timePassed := by
  unfold pushPhase; split <;> rfl

lemma pushPhase_rest (timeUnit : ℤ) (alpha : ℚ) (t : ℤ) (s : LoopState) :
    (pushPhase timeUnit alpha t s).rest = s.rest := by
  unfold pushPhase; split <;> rfl

lemma pushPhase_history (timeUnit : ℤ) (alpha : ℚ) (t : ℤ) (s : LoopState) :
    (pushPhase timeUnit alpha t s).history = s.history ++
      (if t % timeUnit = 0
        then [calculateConvictionNaN s.timePassed s.lastConv s.oldAmount alpha] else []) := by
  unfold pushPhase; split <;> simp

lemma tickStep_history (timeUnit : ℤ) (alpha : ℚ) (t : ℤ) (s : LoopState) :
    (tickStep timeUnit alpha t s).history = s.history ++
      (if t % timeUnit = 0
        then [calculateConvictionNaN s.timePassed s.lastConv s.oldAmount alpha] else []) := by
  unfold tickStep consumeStakes
  rw [consumeGo_history, pushPhase_history]

lemma historyLoop_extends (timeUnit : ℤ) (alpha : ℚ) :
    ∀ (n : ℕ) (t : ℤ) (s : LoopState),
      ∃ ext, historyLoop timeUnit alpha n t s = s.history ++ ext := by
  intro n
  induction n with
  | zero => intro t s; exact ⟨[], by simp [historyLoop]⟩
  | succ n ih =>
      intro t s
      obtain ⟨ext, hext⟩ := ih (t + 1) (tickStep timeUnit alpha t s)
      rw [tickStep_history] at hext
      exact ⟨_, by rw [historyLoop, hext, List.append_assoc]⟩

lemma historyLoop_length (timeUnit : ℤ) (alpha : ℚ) :
    ∀ (n : ℕ) (t : ℤ) (s : LoopState),
      (historyLoop timeUnit alpha n t s).length = s.history.length + multCount timeUnit n t := by
  intro n
  induction n with
  | zero => intro t s; simp [historyLoop, multCount]
  | succ n ih =>
      intro t s
      rw [historyLoop, ih, tickStep_history, multCount, List.length_append]
      split
      · simp
        omega
      · simp

lemma zeroPadLoop_length (timeUnit : ℤ) :
    ∀ (n : ℕ) (it : ℤ), (zeroPadLoop timeUnit n it).length = multCount timeUnit n it := by
  intro n
  induction n with
  | zero => intro it; rfl
  | succ n ih =>
      intro it
      rw [zeroPadLoop, multCount, List.length_append, ih]
      split <;> simp

lemma multCount_add (timeUnit : ℤ) :
    ∀ (a b : ℕ) (t : ℤ),
      multCount timeUnit (a + b) t =
        multCount timeUnit a t + multCount timeUnit b (t + a) := by
  intro a
  induction a with
  | zero => intro b t; simp [multCount]
  | succ a ih =>
      intro b t
      have h1 : a + 1 + b = (a + b) + 1 := by omega
      rw [h1, multCount, multCount, ih b (t + 1)]
      have h2 : t + 1 + (a : ℤ) = t + ((a : ℕ) + 1 : ℕ) := by push_cast; ring
      rw [h2]
      omega

lemma multCount_one_unit : ∀ (n : ℕ) (t : ℤ), multCount 1 n t = n := by
  intro n
  induction n with
  | zero => intro t; rfl
  | succ n ih => intro t; rw [multCount, if_pos (Int.emod_one t), ih]; omega

lemma multCount_pos (timeUnit : ℤ) :
    ∀ (n : ℕ) (t : ℤ) (j : ℕ), j < n → (t + j) % timeUnit = 0 →
      0 < multCount timeUnit n t := by
  intro n
  induction n with
  | zero => intro t j hj; omega
  | succ n ih =>
      intro t j hj hdvd
      cases j with
      | zero =>
          rw [multCount, if_pos (by simpa using hdvd)]
          omega
      | succ j =>
          have harg : t + 1 + (j : ℤ) = t + ((j + 1 : ℕ) : ℤ) := by push_cast; ring
          have hd2 : (t + 1 + (j : ℤ)) % timeUnit = 0 := by rw [harg]; exact hdvd
          have := ih (t + 1) j (by omega) hd2
          rw [multCount]
          omega

lemma historyLoop_quiet (timeUnit : ℤ) (alpha : ℚ) :
    ∀ (k n : ℕ) (t : ℤ) (s : LoopState), k ≤ n →
      (∀ j : ℕ, j < k → ¬ (t + j) % timeUnit = 0) →
      (∀ j : ℕ, j < k → ∀ ev ∈ s.rest.head?, t + j < ev.time) →
      historyLoop timeUnit alpha n t s =
        historyLoop timeUnit alpha (n - k) (t + k)
          { s with timePassed := s.timePassed + k } := by
  intro k
  induction k with
  | zero =>
      intro n t s _ _ _
      simp
  | succ k ih =>
      intro n t s hkn hpush hrest
      cases n with
      | zero => omega
      | succ n =>
          have hstep : tickStep timeUnit alpha t s = { s with timePassed := s.timePassed + 1 } := by
            have hp : pushPhase timeUnit alpha t s = s := by
              unfold pushPhase
              rw [if_neg (by simpa using hpush 0 (by omega))]
            unfold tickStep consumeStakes
            rw [hp, consumeGo_noop t _ _ _ _ _ (fun ev hev => by
              simpa using hrest 0 (by omega) ev hev)]
          rw [historyLoop, hstep]
          rw [ih n (t + 1) _ (by omega)
            (fun j hj => by
              have := hpush (j + 1) (by omega)
              have harg : t + 1 + (j : ℤ) = t + ((j + 1 : ℕ) : ℤ) := by push_cast; ring
              rw [harg]; exact this)
            (fun j hj ev hev => by
              have := hrest (j + 1) (by omega) ev (by simpa using hev)
              have harg : t + 1 + (j : ℤ) = t + ((j + 1 : ℕ) : ℤ) := by push_cast; ring
              rw [harg]; exact this)]
          have h1 : t + 1 + (k : ℤ) = t + ((k + 1 : ℕ) : ℤ) := by push_cast; ring
          have h2 : s.timePassed + 1 + k = s.timePassed + (k + 1) := by omega
          have h3 : n + 1 - (k + 1) = n - k := by omega
          rw [h1, h2, h3]

lemma getLast?_join_none {h : List (Option ℚ)} (hall : ∀ v ∈ h, v = none) :
    h.getLast?.join = none := by
  cases hh : h.getLast? with
  | none => rfl
  | some v =>
      have hv : v ∈ h := by
        rcases List.mem_getLast?_eq_getLast (show v ∈ h.getLast? by simp [hh]) with ⟨hne, hvv⟩
        rw [hvv]
        exact List.getLast_mem hne
      simp [hall v hv]

lemma consumeGo_poison (t : ℤ) :
    ∀ (rest : List Checkpoint) (oa : ℚ) (tp : ℕ) (lc : Option ℚ) (h : List (Option ℚ)),
      lc = none → (∀ v ∈ h, v = none) → (consumeGo t oa tp lc h rest).lastConv = none := by
  intro rest
  induction rest with
  | nil => intro oa tp lc h hlc _; exact hlc
  | cons ev r ih =>
      intro oa tp lc h hlc hall
      rw [consumeGo_cons]
      split
      · exact ih _ _ _ _ (getLast?_join_none hall) hall
      · exact hlc

lemma tickStep_poison (timeUnit : ℤ) (alpha : ℚ) (t : ℤ) (s : LoopState)
    (hlc : s.lastConv = none) (hall : ∀ v ∈ s.history, v = none) :
    (tickStep timeUnit alpha t s).lastConv = none ∧
    ∀ v ∈ (tickStep timeUnit alpha t s).history, v = none := by
  have hpall : ∀ v ∈ (pushPhase timeUnit alpha t s).history, v = none := by
    rw [pushPhase_history]
    intro v hv
    rcases List.mem_append.mp hv with hv | hv
    · exact hall v hv
    · rcases (by revert hv; split <;> simp : v = calculateConvictionNaN s.timePassed
        s.lastConv s.oldAmount alpha ∨ False) with hv | hv
      · rw [hv, hlc]; rfl
      · exact hv.elim
  constructor
  · unfold tickStep consumeStakes
    exact consumeGo_poison t _ _ _ _ _ (by rw [pushPhase_lastConv]; exact hlc) hpall
  · rw [tickStep_history]
    intro v hv
    rcases List.mem_append.mp hv with hv | hv
    · exact hall v hv
    · rcases (by revert hv; split <;> simp : v = calculateConvictionNaN s.timePassed
        s.lastConv s.oldAmount alpha ∨ False) with hv | hv
      · rw [hv, hlc]; rfl
      · exact hv.elim

lemma historyLoop_poison (timeUnit : ℤ) (alpha : ℚ) :
    ∀ (n : ℕ) (t : ℤ) (s : LoopState), s.lastConv = none → (∀ v ∈ s.history, v = none) →
      ∀ v ∈ historyLoop timeUnit alpha n t s, v = none := by
  intro n
  induction n with
  | zero => intro t s _ hall; simpa [historyLoop] using hall
  | succ n ih =>
      intro t s hlc hall
      rw [historyLoop]
      obtain ⟨h1, h2⟩ := tickStep_poison timeUnit alpha t s hlc hall
      exact ih (t + 1) _ h1 h2

lemma getConvictionHistory_length (stakes : List Checkpoint) (currentTime : ℤ) (alpha : ℚ)
    (timeUnit : ℤ) (h : 0 ≤ currentTime) :
    (getConvictionHistory stakes currentTime alpha timeUnit).length =
      multCount timeUnit (50 * timeUnit + 2).toNat (currentTime - 50 * timeUnit - 1) := by
  by_cases hneg : currentTime - 50 * timeUnit - 1 < 0
  · simp only [getConvictionHistory, if_pos hneg]
    rw [historyLoop_length, zeroPadLoop_length]
    have hc1 : (((-(currentTime - 50 * timeUnit - 1)).toNat : ℕ) : ℤ) =
        -(currentTime - 50 * timeUnit - 1) := Int.toNat_of_nonneg (by omega)
    have := multCount_add timeUnit (-(currentTime - 50 * timeUnit - 1)).toNat
      (currentTime - 0 + 1).toNat (currentTime - 50 * timeUnit - 1)
    rw [hc1] at this
    have hz : currentTime - 50 * timeUnit - 1 + -(currentTime - 50 * timeUnit - 1) = 0 := by ring
    rw [hz] at this
    rw [← this]
    congr 1
    omega
  · simp only [getConvictionHistory, if_neg hneg]
    rw [historyLoop_length, zeroPadLoop_length]
    have h0 : (-(currentTime - 50 * timeUnit - 1)).toNat = 0 := by omega
    rw [h0]
    have h1 : multCount timeUnit 0 (currentTime - 50 * timeUnit - 1) = 0 := rfl
    rw [h1]
    have h2 : (currentTime - (currentTime - 50 * timeUnit - 1) + 1).toNat =
        (50 * timeUnit + 2).toNat := by omega
    rw [h2]
    omega

lemma tickStep_first_consume_poison (timeUnit : ℤ) (alpha : ℚ) (t : ℤ) (s : LoopState)
    (hd : Checkpoint) (tl : List Checkpoint)
    (hrest : s.rest = hd :: tl) (hhist : s.history = []) (hev : hd.time ≤ t)
    (hnopush : ¬ t % timeUnit = 0) :
    (tickStep timeUnit alpha t s).lastConv = none ∧
    (tickStep timeUnit alpha t s).history = [] := by
  have hpush : pushPhase timeUnit alpha t s = s := by
    unfold pushPhase
    rw [if_neg hnopush]
  unfold tickStep consumeStakes
  rw [hpush, hrest]
  constructor
  · show (consumeGo t s.oldAmount s.timePassed s.lastConv s.history (hd :: tl)).lastConv = none
    rw [(consumeGo_consume t tl hd s.oldAmount s.timePassed s.lastConv s.history hev).2.1,
      hhist]
    rfl
  · show (consumeGo t s.oldAmount s.timePassed s.lastConv s.history (hd :: tl)).history = []
    rw [consumeGo_history, hhist]

lemma historyLoop_poison_from_stake (timeUnit : ℤ) (alpha : ℚ) (hd : Checkpoint)
    (tl : List Checkpoint) (t : ℤ) (n : ℕ) (oa : ℚ) (lc : Option ℚ)
    (hle : t ≤ hd.time)
    (hq1 : ∀ t', t ≤ t' → t' ≤ hd.time → ¬ t' % timeUnit = 0)
    (hfuel : (hd.time - t).toNat < n) :
    ∀ v ∈ historyLoop timeUnit alpha n t ⟨oa, lc, 0, hd :: tl, []⟩, v = none := by
  have hquiet := historyLoop_quiet timeUnit alpha (hd.time - t).toNat n t
    ⟨oa, lc, 0, hd :: tl, []⟩ (by omega)
    (fun j hj => hq1 (t + j) (by omega) (by omega))
    (fun j hj ev hev => by
      have hevhd : hd = ev := by simpa using hev
      subst hevhd
      omega)
  rw [hquiet]
  have hcast : t + (((hd.time - t).toNat : ℕ) : ℤ) = hd.time := by omega
  rw [hcast]
  have hn : n - (hd.time - t).toNat = (n - (hd.time - t).toNat - 1) + 1 := by omega
  rw [hn, historyLoop]
  obtain ⟨h1, h2⟩ := tickStep_first_consume_poison timeUnit alpha hd.time
    { (⟨oa, lc, 0, hd :: tl, []⟩ : LoopState) with timePassed := 0 + (hd.time - t).toNat }
    hd tl rfl rfl le_rfl (hq1 hd.time hle le_rfl)
  apply historyLoop_poison
  · exact h1
  · rw [h2]
    simp

lemma historyLoop_first_push (timeUnit : ℤ) (alpha : ℚ) (n : ℕ) (t m : ℤ) (s : LoopState)
    (hle : t ≤ m) (hm2 : m % timeUnit = 0)
    (hq1 : ∀ t', t ≤ t' → t' < m → ¬ t' % timeUnit = 0)
    (hq2 : ∀ ev ∈ s.rest, m ≤ ev.time)
    (hfuel : (m - t).toNat < n) :
    (historyLoop timeUnit alpha n t s)[s.history.length]? =
      some (calculateConvictionNaN (s.timePassed + (m - t).toNat) s.lastConv
        s.oldAmount alpha) := by
  have hquiet := historyLoop_quiet timeUnit alpha (m - t).toNat n t s (by omega)
    (fun j hj => hq1 (t + j) (by omega) (by omega))
    (fun j hj ev hev => by
      have hmem : ev ∈ s.rest := List.mem_of_mem_head? hev
      have := hq2 ev hmem
      omega)
  rw [hquiet]
  have hcast : t + (((m - t).toNat : ℕ) : ℤ) = m := by omega
  rw [hcast]
  have hn : n - (m - t).toNat = (n - (m - t).toNat - 1) + 1 := by omega
  rw [hn, historyLoop]
  obtain ⟨ext, hext⟩ := historyLoop_extends timeUnit alpha (n - (m - t).toNat - 1) (m + 1)
    (tickStep timeUnit alpha m { s with timePassed := s.timePassed + (m - t).toNat })
  rw [hext, tickStep_history, if_pos hm2]
  show (s.history ++ _ ++ ext)[s.history.length]? = _
  rw [List.append_assoc, List.getElem?_append_right (le_refl _)]
  simp

/-! ### Claim theorems -/

/-- Claim C3: for a non-empty stakes list with last element `e`,
`getCurrentConviction(stakes, currentTime, alpha)` equals
`calculateConviction(currentTime - e.time, e.conviction, e.totalTokensStaked,
alpha)`; the decay evaluator is applied from the last checkpoint to
`currentTime`. -/
theorem getCurrentConviction_last_checkpoint (stakes : List Checkpoint) (e : Checkpoint)
    (currentTime : ℤ) (alpha : ℚ) (h : stakes.getLast? = some e) :
    getCurrentConviction stakes currentTime alpha =
      calculateConviction (currentTime - e.time) e.conviction e.totalTokensStaked alpha := by
  unfold getCurrentConviction
  rw [h]

/-- Witness for C3: the single stake event at
`time = 0, totalTokensStaked = 100, conviction = 0` sampled at
`currentTime = 10` with `alpha = 0.9` gives exactly
`calculateConviction(10, 0, 100, 0.9)`. -/
theorem getCurrentConviction_last_checkpoint_witness :
    ([(⟨0, 100, 0⟩ : Checkpoint)].getLast? = some ⟨0, 100, 0⟩) ∧
    getCurrentConviction [⟨0, 100, 0⟩] 10 (0.9 : ℚ) =
      calculateConviction (10 - 0) 0 100 (0.9 : ℚ) :=
  ⟨rfl, getCurrentConviction_last_checkpoint [⟨0, 100, 0⟩] ⟨0, 100, 0⟩ 10 (0.9 : ℚ) rfl⟩

/-- Claim C4: when the asymptotic ceiling `amount / (1 - alpha)` is below
`threshold` (and the current conviction is below the ceiling), the argument
of the outer `Math.log` is negative, so `getRemainingTimeToPass` returns NaN
(`none`). -/
theorem getRemainingTimeToPass_nan (threshold conviction amount alpha : ℝ)
    (_ha0 : 0 < alpha) (ha1 : alpha < 1)
    (hceil : amount / (1 - alpha) < threshold)
    (hconv : conviction < amount / (1 - alpha)) :
    getRemainingTimeToPass threshold conviction amount alpha = none := by
  have h1a : (0 : ℝ) < 1 - alpha := by linarith
  have hN : (alpha - 1) * threshold + amount < 0 := by
    have h2 := (div_lt_iff₀ h1a).mp hceil
    nlinarith
  have hD : 0 < (alpha - 1) * conviction + amount := by
    have h2 := (lt_div_iff₀ h1a).mp hconv
    nlinarith
  have harg : ((alpha - 1) * threshold + amount) / ((alpha - 1) * conviction + amount) < 0 :=
    div_neg_of_neg_of_pos hN hD
  unfold getRemainingTimeToPass mathLog
  rw [if_pos harg]
  rfl

/-- Witness for C4: `threshold = 1000, conviction = 0, amount = 1,
alpha = 0.9` (ceiling `10`, far below `1000`) yields NaN. -/
theorem getRemainingTimeToPass_nan_witness :
    (0 : ℝ) < 0.9 ∧ (0.9 : ℝ) < 1 ∧ (1 : ℝ) / (1 - 0.9) < 1000 ∧ (0 : ℝ) < 1 / (1 - 0.9) ∧
    getRemainingTimeToPass 1000 0 1 0.9 = none :=
  ⟨by norm_num, by norm_num, by norm_num, by norm_num,
    getRemainingTimeToPass_nan 1000 0 1 0.9 (by norm_num) (by norm_num) (by norm_num)
      (by norm_num)⟩

/-- Claim C5: `calculateThreshold` returns positive infinity exactly when
`requested / funds >= beta`, and otherwise returns
`rho * supply / (1 - alpha) / (beta - requested / funds) ^ 2`.  (Stated for
nonzero `funds` and `alpha ≠ 1`, where division stays inside the exact
rational model.) -/
theorem calculateThreshold_infinity_iff (requested funds supply alpha beta rho : ℚ)
    (_hf : funds ≠ 0) (_ha : alpha ≠ 1) :
    (calculateThreshold requested funds supply alpha beta rho = ⊤ ↔
      beta ≤ requested / funds) ∧
    (requested / funds < beta →
      calculateThreshold requested funds supply alpha beta rho =
        ((rho * supply / (1 - alpha) / (beta - requested / funds) ^ 2 : ℚ) : WithTop ℚ)) := by
  constructor
  · unfold calculateThreshold
    split_ifs with h
    · constructor
      · intro hx
        exact absurd hx WithTop.coe_ne_top
      · intro hb
        exact absurd h (not_lt.mpr hb)
    · exact iff_of_true rfl (not_lt.mp h)
  · intro h
    unfold calculateThreshold
    rw [if_pos h]

/-- Witness for C5: `requested = 50, funds = 100, beta = 0.4` (share `0.5`)
gives `+Infinity`. -/
theorem calculateThreshold_infinity_iff_witness :
    ((100 : ℚ) ≠ 0) ∧ calculateThreshold 50 100 7 (0.9 : ℚ) (0.4 : ℚ) 1 = ⊤ :=
  ⟨by norm_num,
    (calculateThreshold_infinity_iff 50 100 7 (0.9 : ℚ) (0.4 : ℚ) 1 (by norm_num)
      (by norm_num)).1.mpr (by norm_num)⟩

/-- Claim C6: an empty stake history yields conviction `0`, and an entity
with no events in the ledger yields conviction `0` from
`getCurrentConvictionByEntity`. -/
theorem empty_history_zero_conviction :
    (∀ (currentTime : ℤ) (alpha : ℚ), getCurrentConviction [] currentTime alpha = 0) ∧
    (∀ (stakes : List StakeEvent) (entity : String) (currentTime : ℤ) (alpha : ℚ),
      (∀ e ∈ stakes, e.entity ≠ entity) →
      getCurrentConvictionByEntity stakes entity currentTime alpha = 0) := by
  refine ⟨fun ct alpha => rfl, fun stakes entity ct alpha h => ?_⟩
  have hfil : stakesByEntity stakes entity = [] := by
    unfold stakesByEntity
    have hnil : stakes.filter (fun st => st.entity = entity) = [] := by
      rw [List.filter_eq_nil_iff]
      intro a ha
      simpa using h a ha
    rw [hnil]
    rfl
  simp only [getCurrentConvictionByEntity]
  rw [hfil]
  simp

/-- Witness for C6: a ledger holding only entity `"a"` gives entity `"b"`
zero conviction, and the empty history gives zero conviction. -/
theorem empty_history_zero_conviction_witness :
    (∀ e ∈ ([⟨0, "a", 1, 1, 0⟩] : List StakeEvent), e.entity ≠ "b") ∧
    getCurrentConviction ([] : List Checkpoint) 5 (0.9 : ℚ) = 0 ∧
    getCurrentConvictionByEntity [⟨0, "a", 1, 1, 0⟩] "b" 5 (0.9 : ℚ) = 0 :=
  ⟨by decide, empty_history_zero_conviction.1 5 (0.9 : ℚ),
    empty_history_zero_conviction.2 [⟨0, "a", 1, 1, 0⟩] "b" 5 (0.9 : ℚ) (by decide)⟩

/-- Claim C7: zero elapsed time is the identity on the conviction
checkpoint: `calculateConviction(0, y0, x, alpha) = y0` for `alpha` in
`(0, 1)`. -/
theorem calculateConviction_zero_time (initConv amount alpha : ℚ)
    (_h0 : 0 < alpha) (_h1 : alpha < 1) :
    calculateConviction 0 initConv amount alpha = initConv := by
  unfold calculateConviction
  norm_num

/-- Witness for C7: `calculateConviction(0, 3, 7, 0.5) = 3`. -/
theorem calculateConviction_zero_time_witness :
    (0 : ℚ) < 0.5 ∧ (0.5 : ℚ) < 1 ∧ calculateConviction 0 3 7 (0.5 : ℚ) = 3 :=
  ⟨by norm_num, by norm_num,
    calculateConviction_zero_time 3 7 (0.5 : ℚ) (by norm_num) (by norm_num)⟩

/-- Claim C8: `getMinNeededStake(threshold, alpha) = threshold * (1 - alpha)`,
and `getMaxConviction` inverts it:
`getMaxConviction(getMinNeededStake(threshold, alpha), alpha) = threshold`
whenever `alpha ≠ 1`. -/
theorem minNeededStake_maxConviction_inverse (threshold alpha : ℚ) (h : alpha ≠ 1) :
    getMinNeededStake threshold alpha = threshold * (1 - alpha) ∧
    getMaxConviction (getMinNeededStake threshold alpha) alpha = threshold := by
  have h1 : 1 - alpha ≠ 0 := sub_ne_zero.mpr (Ne.symm h)
  constructor
  · unfold getMinNeededStake
    ring
  · unfold getMaxConviction getMinNeededStake
    field_simp
    ring

/-- Witness for C8: at `threshold = 10, alpha = 0.5`, the minimum stake is
`5` and its asymptotic ceiling is `10` again. -/
theorem minNeededStake_maxConviction_inverse_witness :
    ((0.5 : ℚ) ≠ 1) ∧
    (getMinNeededStake 10 (0.5 : ℚ) = 10 * (1 - 0.5) ∧
      getMaxConviction (getMinNeededStake 10 (0.5 : ℚ)) (0.5 : ℚ) = 10) :=
  ⟨by norm_num, minNeededStake_maxConviction_inverse 10 (0.5 : ℚ) (by norm_num)⟩

set_option maxRecDepth 8000 in
/-- Claim C1 (amended): for every stakes list, alpha, `timeUnit ≥ 1` and
non-negative `currentTime`, the length of `getConvictionHistory` never
depends on the stake events (or on alpha); for `timeUnit = 1` it is always
`52` (the window `[currentTime - 50*timeUnit - 1, currentTime]` holds
`50*timeUnit + 2` ticks, not `50*timeUnit + 1`), and for `timeUnit = 5` it
is `51` at each of `currentTime ∈ {0, 10, 100000}` (in general it is the
number of sampling ticks falling in the window, which varies with how
`currentTime` aligns with the sampling grid). -/
theorem getConvictionHistory_length_spec (stakes : List Checkpoint) (alpha : ℚ)
    (currentTime timeUnit : ℤ) (h : 0 ≤ currentTime) (_hu : 1 ≤ timeUnit) :
    (getConvictionHistory stakes currentTime alpha 1).length = 52 ∧
    (getConvictionHistory stakes currentTime alpha timeUnit).length =
      (getConvictionHistory ([] : List Checkpoint) currentTime alpha timeUnit).length ∧
    ((currentTime = 0 ∨ currentTime = 10 ∨ currentTime = 100000) →
      (getConvictionHistory stakes currentTime alpha 5).length = 51) := by
  refine ⟨?_, ?_, ?_⟩
  · rw [getConvictionHistory_length stakes currentTime alpha 1 h, multCount_one_unit]
    decide
  · rw [getConvictionHistory_length stakes currentTime alpha timeUnit h,
      getConvictionHistory_length ([] : List Checkpoint) currentTime alpha timeUnit h]
  · rintro (rfl | rfl | rfl) <;>
      · rw [getConvictionHistory_length stakes _ alpha 5 (by norm_num)]
        decide

/-- Witness for C1: at `currentTime = 10` the `timeUnit = 1` history has 52
samples, the length ignores the stake list, and the `timeUnit = 5` history
has 51 samples. -/
theorem getConvictionHistory_length_spec_witness :
    ((0 : ℤ) ≤ 10 ∧ (1 : ℤ) ≤ 5) ∧
    ((getConvictionHistory [(⟨0, 100, 0⟩ : Checkpoint)] 10 (0.9 : ℚ) 1).length = 52 ∧
      (getConvictionHistory [(⟨0, 100, 0⟩ : Checkpoint)] 10 (0.9 : ℚ) 5).length =
        (getConvictionHistory ([] : List Checkpoint) 10 (0.9 : ℚ) 5).length ∧
      (((10 : ℤ) = 0 ∨ (10 : ℤ) = 10 ∨ (10 : ℤ) = 100000) →
        (getConvictionHistory [(⟨0, 100, 0⟩ : Checkpoint)] 10 (0.9 : ℚ) 5).length = 51)) :=
  ⟨⟨by decide, by decide⟩,
    getConvictionHistory_length_spec [⟨0, 100, 0⟩] (0.9 : ℚ) 10 5 (by decide) (by decide)⟩

/-- Counterexample to C1 as stated: at `timeUnit = 1`, `currentTime = 0` the
returned history has `52` samples, not `51` (`floor(50*1/1) + 1`). -/
theorem getConvictionHistory_51_counterexample :
    (getConvictionHistory ([] : List Checkpoint) 0 (0.9 : ℚ) 1).length = 52 ∧
    ¬ (getConvictionHistory ([] : List Checkpoint) 0 (0.9 : ℚ) 1).length = 51 := by
  have h := getConvictionHistory_length ([] : List Checkpoint) 0 (0.9 : ℚ) 1 (by norm_num)
  rw [h, multCount_one_unit]
  exact ⟨by decide, by decide⟩

/-- Claim C2: when one or more recent stake events are consumed at tick `t`
(the head of the unconsumed suffix has `time ≤ t`), the inner `while` loop
leaves the output history untouched, resets `timePassed` to `0`, sets the
tracked amount to the last consumed event's `totalTokensStaked`, and resets
the checkpoint conviction to the last element already appended to the output
history (`[...history].pop()`), not to a formula-computed value; consequently
the next emitted sample — at the next sampling tick `m` — equals
`calculateConviction(timePassed, lastEmittedSample, newAmount, alpha)` with
`timePassed = m - t`. -/
theorem stake_change_checkpoint_spec (timeUnit : ℤ) (alpha : ℚ) (t m : ℤ) (s : LoopState)
    (n : ℕ) (ev : Checkpoint) (rest : List Checkpoint)
    (hr : s.rest = ev :: rest) (hev : ev.time ≤ t)
    (hm1 : t < m) (hm2 : m % timeUnit = 0)
    (hm3 : ∀ t', t < t' → t' < m → ¬ t' % timeUnit = 0)
    (hm4 : m ≤ t + n)
    (hq : ∀ e ∈ (consumeStakes t (pushPhase timeUnit alpha t s)).rest, m ≤ e.time) :
    (consumeStakes t (pushPhase timeUnit alpha t s)).timePassed = 0 ∧
    (consumeStakes t (pushPhase timeUnit alpha t s)).history =
      (pushPhase timeUnit alpha t s).history ∧
    (consumeStakes t (pushPhase timeUnit alpha t s)).lastConv =
      (pushPhase timeUnit alpha t s).history.getLast?.join ∧
    (∃ consumed, ∃ hne : consumed ≠ [],
      s.rest = consumed ++ (consumeStakes t (pushPhase timeUnit alpha t s)).rest ∧
      (consumeStakes t (pushPhase timeUnit alpha t s)).oldAmount =
        (consumed.getLast hne).totalTokensStaked) ∧
    (historyLoop timeUnit alpha n (t + 1)
        (tickStep timeUnit alpha t s))[(pushPhase timeUnit alpha t s).history.length]? =
      some (calculateConvictionNaN (m - t).toNat
        (pushPhase timeUnit alpha t s).history.getLast?.join
        (consumeStakes t (pushPhase timeUnit alpha t s)).oldAmount alpha) := by
  have hprest : (pushPhase timeUnit alpha t s).rest = ev :: rest := by
    rw [pushPhase_rest, hr]
  have hcs : consumeStakes t (pushPhase timeUnit alpha t s) =
      consumeGo t (pushPhase timeUnit alpha t s).oldAmount
        (pushPhase timeUnit alpha t s).timePassed
        (pushPhase timeUnit alpha t s).lastConv
        (pushPhase timeUnit alpha t s).history (ev :: rest) := by
    unfold consumeStakes
    rw [hprest]
  obtain ⟨h1, h2, consumed, hne, heq, hoa⟩ :=
    consumeGo_consume t rest ev (pushPhase timeUnit alpha t s).oldAmount
      (pushPhase timeUnit alpha t s).timePassed
      (pushPhase timeUnit alpha t s).lastConv
      (pushPhase timeUnit alpha t s).history hev
  have hhist : (consumeStakes t (pushPhase timeUnit alpha t s)).history =
      (pushPhase timeUnit alpha t s).history := by
    rw [hcs, consumeGo_history]
  refine ⟨by rw [hcs]; exact h1, hhist, by rw [hcs]; exact h2,
    ⟨consumed, hne, by rw [hr, hcs]; exact heq, by rw [hcs]; exact hoa⟩, ?_⟩
  have hfp := historyLoop_first_push timeUnit alpha n (t + 1) m
    (tickStep timeUnit alpha t s) (by omega) hm2
    (fun t' ht1 ht2 => hm3 t' (by omega) ht2)
    (fun e he => hq e he)
    (by omega)
  have hSh : (tickStep timeUnit alpha t s).history = (pushPhase timeUnit alpha t s).history :=
    hhist
  have hSl : (tickStep timeUnit alpha t s).lastConv =
      (pushPhase timeUnit alpha t s).history.getLast?.join := by
    show (consumeStakes t (pushPhase timeUnit alpha t s)).lastConv = _
    rw [hcs]
    exact h2
  have hSt : (tickStep timeUnit alpha t s).timePassed = 1 := by
    show (consumeStakes t (pushPhase timeUnit alpha t s)).timePassed + 1 = 1
    rw [hcs, h1]
  rw [hSh, hSl, hSt] at hfp
  have hmt : 1 + (m - (t + 1)).toNat = (m - t).toNat := by omega
  rw [hmt] at hfp
  exact hfp

/-- Witness for C2: at tick `t = 3` (with `timeUnit = 5`) the single pending
event `{time 3, amount 7}` is consumed from the state whose history is
`[9]`: the checkpoint becomes the previously emitted sample `9`, and the next
emitted sample (at tick `m = 5`) is `calculateConviction(2, 9, 7, 0.9)`. -/
theorem stake_change_checkpoint_spec_witness :
    ((⟨3, 7, 0⟩ : Checkpoint).time ≤ 3) ∧
    ((consumeStakes 3
        (pushPhase 5 (0.9 : ℚ) 3 ⟨2, some 1, 4, [⟨3, 7, 0⟩], [some 9]⟩)).timePassed = 0 ∧
      (consumeStakes 3
          (pushPhase 5 (0.9 : ℚ) 3 ⟨2, some 1, 4, [⟨3, 7, 0⟩], [some 9]⟩)).history =
        (pushPhase 5 (0.9 : ℚ) 3 ⟨2, some 1, 4, [⟨3, 7, 0⟩], [some 9]⟩).history ∧
      (consumeStakes 3
          (pushPhase 5 (0.9 : ℚ) 3 ⟨2, some 1, 4, [⟨3, 7, 0⟩], [some 9]⟩)).lastConv =
        (pushPhase 5 (0.9 : ℚ) 3
          ⟨2, some 1, 4, [⟨3, 7, 0⟩], [some 9]⟩).history.getLast?.join ∧
      (∃ consumed, ∃ hne : consumed ≠ [],
        (⟨2, some 1, 4, [⟨3, 7, 0⟩], [some 9]⟩ : LoopState).rest =
          consumed ++ (consumeStakes 3
            (pushPhase 5 (0.9 : ℚ) 3 ⟨2, some 1, 4, [⟨3, 7, 0⟩], [some 9]⟩)).rest ∧
        (consumeStakes 3
            (pushPhase 5 (0.9 : ℚ) 3 ⟨2, some 1, 4, [⟨3, 7, 0⟩], [some 9]⟩)).oldAmount =
          (consumed.getLast hne).totalTokensStaked) ∧
      (historyLoop 5 (0.9 : ℚ) 5 (3 + 1)
          (tickStep 5 (0.9 : ℚ) 3 ⟨2, some 1, 4, [⟨3, 7, 0⟩], [some 9]⟩))[
            (pushPhase 5 (0.9 : ℚ) 3
              ⟨2, some 1, 4, [⟨3, 7, 0⟩], [some 9]⟩).history.length]? =
        some (calculateConvictionNaN ((5 : ℤ) - 3).toNat
          (pushPhase 5 (0.9 : ℚ) 3
            ⟨2, some 1, 4, [⟨3, 7, 0⟩], [some 9]⟩).history.getLast?.join
          (consumeStakes 3
            (pushPhase 5 (0.9 : ℚ) 3 ⟨2, some 1, 4, [⟨3, 7, 0⟩], [some 9]⟩)).oldAmount
          (0.9 : ℚ))) :=
  ⟨by decide,
    stake_change_checkpoint_spec 5 (0.9 : ℚ) 3 5 ⟨2, some 1, 4, [⟨3, 7, 0⟩], [some 9]⟩ 5
      ⟨3, 7, 0⟩ [] rfl (by decide) (by decide) (by decide) (by omega) (by omega) (by decide)⟩

/-- Claim C9: when `initTime = currentTime - 50*timeUnit - 1` is non-negative
and not a sampling tick, and some stake event falls strictly between
`initTime` and the first sampling tick `m` at or after `initTime`
(for a chronologically ordered ledger), the consuming loop pops the
still-empty history into the checkpoint (`undefined`), and every sample of
the returned — non-empty — history is NaN (`none`). -/
theorem getConvictionHistory_nan_poisoning (stakes : List Checkpoint)
    (currentTime timeUnit m : ℤ) (alpha : ℚ)
    (hu : 1 ≤ timeUnit)
    (hinit : 0 ≤ currentTime - 50 * timeUnit - 1)
    (_hndvd : ¬ (currentTime - 50 * timeUnit - 1) % timeUnit = 0)
    (hsort : stakes.Pairwise fun a b => a.time ≤ b.time)
    (hm1 : currentTime - 50 * timeUnit - 1 ≤ m) (hm2 : m % timeUnit = 0)
    (hm3 : ∀ t, currentTime - 50 * timeUnit - 1 ≤ t → t < m → ¬ t % timeUnit = 0)
    (he : ∃ e ∈ stakes, currentTime - 50 * timeUnit - 1 < e.time ∧ e.time < m) :
    getConvictionHistory stakes currentTime alpha timeUnit ≠ [] ∧
    ∀ v ∈ getConvictionHistory stakes currentTime alpha timeUnit, v = none := by
  have hmod_lt : (currentTime - 50 * timeUnit - 1) % timeUnit < timeUnit :=
    Int.emod_lt_of_pos _ (by omega)
  have hmod_nonneg : 0 ≤ (currentTime - 50 * timeUnit - 1) % timeUnit :=
    Int.emod_nonneg _ (by omega)
  have hediv : currentTime - 50 * timeUnit - 1 - (currentTime - 50 * timeUnit - 1) % timeUnit
      = timeUnit * ((currentTime - 50 * timeUnit - 1) / timeUnit) := by
    have := Int.emod_def (currentTime - 50 * timeUnit - 1) timeUnit
    omega
  have hc0 : (timeUnit * ((currentTime - 50 * timeUnit - 1) / timeUnit) + timeUnit) %
      timeUnit = 0 := by
    have hfactor : timeUnit * ((currentTime - 50 * timeUnit - 1) / timeUnit) + timeUnit
        = timeUnit * ((currentTime - 50 * timeUnit - 1) / timeUnit + 1) := by ring
    rw [hfactor]
    exact Int.mul_emod_right _ _
  have hm_ub : m ≤ currentTime - 50 * timeUnit - 1 + timeUnit := by
    by_contra hcon
    push_neg at hcon
    exact hm3 (timeUnit * ((currentTime - 50 * timeUnit - 1) / timeUnit) + timeUnit)
      (by omega) (by omega) hc0
  obtain ⟨e, hestakes, he1, he2⟩ := he
  have herec : e ∈ stakes.filter
      (fun stake => stake.time > (currentTime - 50 * timeUnit - 1)) := by
    rw [List.mem_filter]
    exact ⟨hestakes, by simpa using he1⟩
  obtain ⟨hd, tl, hrec⟩ : ∃ hd tl, stakes.filter
      (fun stake => stake.time > (currentTime - 50 * timeUnit - 1)) = hd :: tl := by
    cases hcase : stakes.filter
        (fun stake => stake.time > (currentTime - 50 * timeUnit - 1)) with
    | nil =>
        rw [hcase] at herec
        exact absurd herec (List.not_mem_nil e)
    | cons a b => exact ⟨a, b, rfl⟩
  have hhd_mem : hd ∈ stakes.filter
      (fun stake => stake.time > (currentTime - 50 * timeUnit - 1)) := by
    rw [hrec]
    exact List.mem_cons_self _ _
  have hhd_gt : currentTime - 50 * timeUnit - 1 < hd.time := by
    have := (List.mem_filter.mp hhd_mem).2
    simpa using this
  have hsort_rec : (stakes.filter
      (fun stake => stake.time > (currentTime - 50 * timeUnit - 1))).Pairwise
        (fun a b => a.time ≤ b.time) := List.Pairwise.filter _ hsort
  have hhd_le : hd.time ≤ e.time := by
    rw [hrec] at hsort_rec herec
    rcases List.mem_cons.mp herec with h | h
    · rw [h]
    · exact (List.pairwise_cons.mp hsort_rec).1 e h
  have ht0m : hd.time < m := lt_of_le_of_lt hhd_le he2
  constructor
  · have hlen := getConvictionHistory_length stakes currentTime alpha timeUnit (by omega)
    have hpos : 0 < multCount timeUnit (50 * timeUnit + 2).toNat
        (currentTime - 50 * timeUnit - 1) := by
      refine multCount_pos timeUnit _ _
        (m - (currentTime - 50 * timeUnit - 1)).toNat (by omega) ?_
      have hcast : currentTime - 50 * timeUnit - 1 +
          (((m - (currentTime - 50 * timeUnit - 1)).toNat : ℕ) : ℤ) = m := by omega
      rw [hcast]
      exact hm2
    intro hnil
    rw [hnil] at hlen
    simp at hlen
    omega
  · simp only [getConvictionHistory]
    rw [if_neg (not_lt.mpr hinit)]
    rw [Int.toNat_of_nonpos (by omega : -(currentTime - 50 * timeUnit - 1) ≤ 0)]
    rw [hrec]
    exact historyLoop_poison_from_stake timeUnit alpha hd tl _ _ _ _ (le_of_lt hhd_gt)
      (fun t' ht1 ht2 => hm3 t' ht1 (lt_of_le_of_lt ht2 ht0m))
      (by omega)

/-- Witness for C9: `currentTime = 252`, `timeUnit = 5` puts `initTime = 1`
(not a sampling tick); the single event at `time = 2` lies before the first
sampling tick `m = 5`, and the whole 50-sample history is NaN. -/
theorem getConvictionHistory_nan_poisoning_witness :
    ((0 : ℤ) ≤ 252 - 50 * 5 - 1 ∧ ¬ ((252 : ℤ) - 50 * 5 - 1) % 5 = 0) ∧
    (getConvictionHistory [(⟨2, 3, 0⟩ : Checkpoint)] 252 (0.9 : ℚ) 5 ≠ [] ∧
      ∀ v ∈ getConvictionHistory [(⟨2, 3, 0⟩ : Checkpoint)] 252 (0.9 : ℚ) 5, v = none) :=
  ⟨⟨by decide, by decide⟩,
    getConvictionHistory_nan_poisoning [⟨2, 3, 0⟩] 252 5 5 (0.9 : ℚ)
      (by decide) (by decide) (by decide) (by simp) (by decide) (by decide)
      (by omega)
      ⟨⟨2, 3, 0⟩, by simp, by decide, by decide⟩⟩
